import Mathlib

/-!
Shallow embedding of the `textparser` tokenizer (`textparser.go`) and
theorems checking its natural-language specification.  The scanner input is
modelled as a `List Char` of Unicode scalar values; byte counts use the
UTF-8 size of each character, matching Go's `utf8` encoding of valid runes.
-/

namespace Textparser

/-- `Position` from the source (the `Filename` field, used only for display,
is omitted): byte offset starting at 0, line starting at 1, column in
characters starting at 1. -/
structure Pos where
  offset : Nat
  line : Nat
  column : Nat
deriving Repr, DecidableEq

/-- `TokenType` enumeration from the source. -/
inductive TokenType where
  | whitespace
  | ident
  | string
  | comment
  | int
  | float
  | symbol
deriving Repr, DecidableEq

/-- `Token` from the source: text, byte count, rune count, first rune, type.
Text is kept as the list of runes. -/
structure Token where
  text : List Char
  numBytes : Nat
  numChars : Nat
  firstRune : Char
  type : TokenType
deriving Repr, DecidableEq

/-- Total UTF-8 byte length of a list of runes. -/
def utf8Len (l : List Char) : Nat := (l.map Char.utf8Size).sum

/-- The mutable scanner state of `TokenScanner`: the unread remainder of the
input stream, the position, and the staged deltas `last_byte_len`,
`last_line_addition`, `last_col`. -/
structure ScanState where
  input : List Char
  pos : Pos
  lastByteLen : Nat
  lastLineAddition : Nat
  lastCol : Nat
deriving Repr, DecidableEq

/-- The pluggable predicate fields of `TokenScanner` together with the
`SkipWhitespace`/`SkipComments` flags and the `eol` rune. -/
structure Config where
  isIdentRune : Char → Nat → Bool
  isSpaceRune : Char → Bool
  isQuoteRune : Char → Bool × Char
  isEscapeRune : Char → Bool
  isSymbolRune : Char → Bool
  isDigitRune : Char → Bool
  skipWhitespace : Bool
  skipComments : Bool
  eol : Char

/-- Errors observable in the model: `eof` stands for Go's `io.EOF`;
`unterminated` is the unterminated-string error of `get_quoted`, carrying
the position where the quoted token began and the expected closing rune. -/
inductive ScanError where
  | eof
  | unterminated (pos : Pos) (closing : Char)
deriving Repr, DecidableEq

/-- Result of one classifier: a token plus updated state, "not applicable"
(Go's `nil, nil`), or an error (Go's `nil, err`). -/
inductive CRes where
  | tok (t : Token) (s : ScanState)
  | noMatch (s : ScanState)
  | err (e : ScanError) (s : ScanState)
deriving Repr, DecidableEq

/-- ASCII-range model of Go's `unicode.IsSpace` (the White_Space property);
runes above the ASCII range do not occur in any input considered here. -/
def goIsSpace (c : Char) : Bool :=
  c = ' ' ∨ c = '\t' ∨ c = '\n' ∨ c = Char.ofNat 11 ∨ c = Char.ofNat 12 ∨ c = '\r'

/-- ASCII-range model of Go's `unicode.IsDigit`. -/
def goIsDigit (c : Char) : Bool := '0' ≤ c ∧ c ≤ '9'

/-- ASCII-range model of Go's `unicode.IsLetter`. -/
def goIsLetter (c : Char) : Bool := ('a' ≤ c ∧ c ≤ 'z') ∨ ('A' ≤ c ∧ c ≤ 'Z')

/-- ASCII-range model of Go's `unicode.IsPunct` (category P): in ASCII these
are `! " # % & ' ( ) * , - . / : ; ? @ [ \ ] _ { }`. -/
def goIsPunct (c : Char) : Bool :=
  c = '!' ∨ c = '"' ∨ c = '#' ∨ c = '%' ∨ c = '&' ∨ c = '\'' ∨ c = '(' ∨
  c = ')' ∨ c = '*' ∨ c = ',' ∨ c = '-' ∨ c = '.' ∨ c = '/' ∨ c = ':' ∨
  c = ';' ∨ c = '?' ∨ c = '@' ∨ c = '[' ∨ c = '\\' ∨ c = ']' ∨ c = '_' ∨
  c = Char.ofNat 123 ∨ c = Char.ofNat 125

/-- ASCII-range model of Go's `unicode.IsSymbol` (category S): in ASCII these
are `$ + < = > ^ | ~` and the backquote U+0060. -/
def goIsSymbol (c : Char) : Bool :=
  c = '$' ∨ c = '+' ∨ c = '<' ∨ c = '=' ∨ c = '>' ∨ c = '^' ∨
  c = Char.ofNat 96 ∨ c = '|' ∨ c = '~'

/-- ASCII-range model of Go's `unicode.IsMark`: no ASCII rune is a mark. -/
def goIsMark (_ : Char) : Bool := false

/-- Default `IsQuoteRune`: double quote, single quote and backquote U+0060
each close with themselves; everything else is not a quote (Go returns
`false, 0`). -/
def IsQuoteRune (ch : Char) : Bool × Char :=
  if ch = '"' then (true, '"')
  else if ch = '\'' then (true, '\'')
  else if ch = Char.ofNat 96 then (true, Char.ofNat 96)
  else (false, Char.ofNat 0)

/-- Default `IsEscapeRune`: true exactly for the reverse solidus. -/
def IsEscapeRune (ch : Char) : Bool := ch = '\\'

/-- Default `IsSymbolRune`: quote-opening runes are refused; otherwise any
Unicode symbol or punctuation rune is accepted. -/
def IsSymbolRune (ch : Char) : Bool :=
  if (IsQuoteRune ch).1 then false
  else if goIsSymbol ch then true
  else if goIsPunct ch then true
  else false

/-- Default `IsIdentRune`: letters and `_` always; punctuation never; digits
only at index > 0; marks always. -/
def IsIdentRune (ch : Char) (i : Nat) : Bool :=
  if goIsLetter ch then true
  else if ch = '_' then true
  else if goIsPunct ch then false
  else if i > 0 ∧ goIsDigit ch then true
  else if goIsMark ch then true
  else false

/-- The configuration `Init` installs: default predicates, both skip flags
set, end-of-line rune `\n`. -/
def defaultConfig : Config where
  isIdentRune := IsIdentRune
  isSpaceRune := goIsSpace
  isQuoteRune := IsQuoteRune
  isEscapeRune := IsEscapeRune
  isSymbolRune := IsSymbolRune
  isDigitRune := goIsDigit
  skipWhitespace := true
  skipComments := true
  eol := '\n'

/-- Line/column bookkeeping every classifier performs on consuming rune `c`:
crossing the end-of-line rune bumps the pending line count and resets the
pending column to 1, any other rune bumps the pending column. -/
def bumpLC (cfg : Config) (c : Char) (la lc : Nat) : Nat × Nat :=
  if c = cfg.eol then (la + 1, 1) else (la, lc + 1)

/-- Loop body of `get_general`: greedily consume runes accepted by `check`
and not matched by any exception predicate, accumulating runes, byte size
and line/column deltas.  Returns `none` for Go's end-of-input error (EOF
reached with nothing consumed), otherwise the runes, their byte size, the
updated deltas, and the unconsumed rest. -/
def generalAux (cfg : Config) (check : Char → Bool) (exceptions : List (Char → Bool)) :
    List Char → List Char → Nat → Nat → Nat →
    Option (List Char × Nat × Nat × Nat × List Char)
  | [], runes, total, la, lc =>
    if runes.isEmpty then none else some (runes, total, la, lc, [])
  | c :: rest, runes, total, la, lc =>
    if ¬ (exceptions.any fun e => e c) ∧ check c then
      let p := bumpLC cfg c la lc
      generalAux cfg check exceptions rest (runes ++ [c]) (total + c.utf8Size) p.1 p.2
    else
      some (runes, total, la, lc, c :: rest)

/-- `get_general`: wraps `generalAux`, building a token when at least one
rune was consumed and recording its byte length in `last_byte_len`. -/
def getGeneral (cfg : Config) (ty : TokenType) (check : Char → Bool)
    (exceptions : List (Char → Bool)) (s : ScanState) : CRes :=
  match generalAux cfg check exceptions s.input [] 0 s.lastLineAddition s.lastCol with
  | none => .err .eof s
  | some (runes, total, la, lc, rest) =>
    if runes.isEmpty then .noMatch s
    else
      .tok
        { text := runes, numBytes := total, numChars := runes.length,
          firstRune := runes.headD (Char.ofNat 0), type := ty }
        { s with input := rest, lastByteLen := total,
                 lastLineAddition := la, lastCol := lc }

/-- `get_whitespace`: `get_general` with the whitespace predicate. -/
def getWhitespace (cfg : Config) (s : ScanState) : CRes :=
  getGeneral cfg .whitespace cfg.isSpaceRune [] s

/-- `get_symbol`: `get_general` with the symbol predicate, treating every
quote-opening rune as a hard stop. -/
def getSymbol (cfg : Config) (s : ScanState) : CRes :=
  getGeneral cfg .symbol cfg.isSymbolRune [fun ch => (cfg.isQuoteRune ch).1] s

/-- Loop body of `get_ident`: like `generalAux` but the predicate also gets
the zero-based index of the candidate rune. -/
def identAux (cfg : Config) :
    List Char → Nat → List Char → Nat → Nat → Nat →
    Option (List Char × Nat × Nat × Nat × List Char)
  | [], _, runes, total, la, lc =>
    if runes.isEmpty then none else some (runes, total, la, lc, [])
  | c :: rest, i, runes, total, la, lc =>
    if cfg.isIdentRune c i then
      let p := bumpLC cfg c la lc
      identAux cfg rest (i + 1) (runes ++ [c]) (total + c.utf8Size) p.1 p.2
    else
      some (runes, total, la, lc, c :: rest)

/-- `get_ident`: consume runes accepted by the identifier predicate. -/
def getIdent (cfg : Config) (s : ScanState) : CRes :=
  match identAux cfg s.input 0 [] 0 s.lastLineAddition s.lastCol with
  | none => .err .eof s
  | some (runes, total, la, lc, rest) =>
    if runes.isEmpty then .noMatch s
    else
      .tok
        { text := runes, numBytes := total, numChars := runes.length,
          firstRune := runes.headD (Char.ofNat 0), type := .ident }
        { s with input := rest, lastByteLen := total,
                 lastLineAddition := la, lastCol := lc }

/-- Loop body of `get_number`.  A `.` is consumed only when a digit has been
seen, no `.` has been consumed yet, and (2-rune lookahead) the rune after it
is a digit; a `-` only when no digit has been seen yet and the rune after it
is a digit; digit runes are consumed greedily.  Anything else ends the run.
Returns `none` for the end-of-input error (EOF with nothing consumed),
otherwise runes, byte size, the float flag, line/column deltas and the
unconsumed rest. -/
def numberAux (cfg : Config) :
    List Char → List Char → Nat → Bool → Bool → Bool → Nat → Nat →
    Option (List Char × Nat × Bool × Nat × Nat × List Char)
  | [], runes, total, _, _, isFloat, la, lc =>
    if runes.isEmpty then none else some (runes, total, isFloat, la, lc, [])
  | c :: rest, runes, total, foundDigits, foundDecimal, isFloat, la, lc =>
    if c = '.' ∧ foundDigits ∧ ¬foundDecimal then
      match rest with
      | d :: _ =>
        if cfg.isDigitRune d then
          numberAux cfg rest (runes ++ [c]) (total + c.utf8Size)
            foundDigits true true la (lc + 1)
        else some (runes, total, isFloat, la, lc, c :: rest)
      | [] => some (runes, total, isFloat, la, lc, c :: rest)
    else if c = '-' ∧ ¬foundDigits then
      match rest with
      | d :: _ =>
        if cfg.isDigitRune d then
          numberAux cfg rest (runes ++ [c]) (total + c.utf8Size)
            foundDigits foundDecimal isFloat la (lc + 1)
        else some (runes, total, isFloat, la, lc, c :: rest)
      | [] => some (runes, total, isFloat, la, lc, c :: rest)
    else if cfg.isDigitRune c then
      numberAux cfg rest (runes ++ [c]) (total + c.utf8Size)
        true foundDecimal isFloat (bumpLC cfg c la lc).1 (bumpLC cfg c la lc).2
    else some (runes, total, isFloat, la, lc, c :: rest)

/-- `get_number`: wraps `numberAux`; the token is a Float when a decimal
point was consumed, an Int otherwise. -/
def getNumber (cfg : Config) (s : ScanState) : CRes :=
  match numberAux cfg s.input [] 0 false false false s.lastLineAddition s.lastCol with
  | none => .err .eof s
  | some (runes, total, isFloat, la, lc, rest) =>
    if runes.isEmpty then .noMatch s
    else
      .tok
        { text := runes, numBytes := total, numChars := runes.length,
          firstRune := runes.headD (Char.ofNat 0),
          type := if isFloat then .float else .int }
        { s with input := rest, lastByteLen := total,
                 lastLineAddition := la, lastCol := lc }

/-- `read_until`: consume runes through the first occurrence of `endCh`,
updating `last_byte_len` and line/column per rune.  Reaching end of input is
an error (carrying the deltas accumulated so far) unless `endCh` is the
end-of-line rune, in which case EOF terminates the read normally. -/
def readUntil (cfg : Config) (endCh : Char) :
    List Char → List Char → Nat → Nat → Nat →
    Except (Nat × Nat × Nat) (List Char × Nat × Nat × Nat × List Char)
  | [], acc, bl, la, lc =>
    if endCh = cfg.eol then .ok (acc, bl, la, lc, []) else .error (bl, la, lc)
  | c :: rest, acc, bl, la, lc =>
    let bl' := bl + c.utf8Size
    let p := bumpLC cfg c la lc
    if c = endCh then .ok (acc ++ [c], bl', p.1, p.2, rest)
    else readUntil cfg endCh rest (acc ++ [c]) bl' p.1 p.2

/-- Loop of `get_quoted` after the opening rune: read through the next
closing rune; if the rune just before the matched closing rune satisfies the
escape predicate, drop that escape rune, keep the closing rune as content,
and continue; otherwise the string is complete.  The first argument is
recursion fuel; callers pass more fuel than the input length, which is never
exhausted since every continuing iteration consumes at least two runes. -/
def quotedLoop (cfg : Config) (closing : Char) :
    Nat → List Char → List Char → Nat → Nat → Nat →
    Except (Nat × Nat × Nat) (List Char × Nat × Nat × Nat × List Char)
  | 0, _, _, bl, la, lc => .error (bl, la, lc)
  | fuel + 1, inp, all, bl, la, lc =>
    match readUntil cfg closing inp [] bl la lc with
    | .error e => .error e
    | .ok (runes, bl', la', lc', rest) =>
      if 1 < runes.length ∧ cfg.isEscapeRune (runes.getD (runes.length - 2) (Char.ofNat 0)) then
        quotedLoop cfg closing fuel rest
          (all ++ (runes.take (runes.length - 2) ++ runes.drop (runes.length - 1)))
          bl' la' lc'
      else .ok (all ++ runes, bl', la', lc', rest)

/-- `get_quoted`: if the next rune opens a quote, consume it (its byte size
is added to `last_byte_len`, but its column is not counted — mirroring the
source) and run `quotedLoop` for the matching closing rune.  On failure the
whole remaining input has been consumed and the unterminated-string error
carries the scanner position (the start of the token) and the expected
closing rune. -/
def getQuoted (cfg : Config) (s : ScanState) : CRes :=
  match s.input with
  | [] => .err .eof s
  | c :: rest =>
    if (cfg.isQuoteRune c).1 then
      match quotedLoop cfg (cfg.isQuoteRune c).2 (rest.length + 1) rest []
          (s.lastByteLen + c.utf8Size) s.lastLineAddition s.lastCol with
      | .error (bl', la', lc') =>
        .err (.unterminated s.pos (cfg.isQuoteRune c).2)
          { s with input := [], lastByteLen := bl',
                   lastLineAddition := la', lastCol := lc' }
      | .ok (allRunes, bl', la', lc', rest') =>
        .tok
          { text := c :: allRunes, numBytes := bl',
            numChars := allRunes.length + 1, firstRune := c,
            type := .string }
          { s with input := rest', lastByteLen := bl',
                   lastLineAddition := la', lastCol := lc' }
    else .noMatch s

/-- Loop of the `/* ... */` branch of `get_comment`: read through the next
`*`, then take one more rune; that rune is appended to the comment text but
— exactly as in the source — its byte size and column are *not* added to the
staged deltas.  A `/` ends the comment; anything else resumes the search.
End of input anywhere here is an EOF error.  Fuel as in `quotedLoop`. -/
def commentLoop (cfg : Config) :
    Nat → List Char → List Char → Nat → Nat → Nat →
    Except (Nat × Nat × Nat) (List Char × Nat × Nat × Nat × List Char)
  | 0, _, _, bl, la, lc => .error (bl, la, lc)
  | fuel + 1, inp, all, bl, la, lc =>
    match readUntil cfg '*' inp [] bl la lc with
    | .error e => .error e
    | .ok (runes, bl', la', lc', rest) =>
      match rest with
      | [] => .error (bl', la', lc')
      | c :: rest' =>
        if c = '/' then .ok (all ++ runes ++ [c], bl', la', lc', rest')
        else commentLoop cfg fuel rest' (all ++ runes ++ [c]) bl' la' lc'

/-- `get_comment`: a leading `/` followed by `/` starts a line comment
(through the end-of-line rune or end of input); followed by `*` it starts a
block comment handled by `commentLoop`; otherwise nothing is consumed. -/
def getComment (cfg : Config) (s : ScanState) : CRes :=
  match s.input with
  | [] => .err .eof s
  | c :: rest =>
    if c = '/' then
      match rest with
      | [] => .noMatch s
      | c2 :: rest2 =>
        if c2 = '/' then
          match readUntil cfg cfg.eol rest2 []
              (s.lastByteLen + c.utf8Size + c2.utf8Size)
              (bumpLC cfg c2 (bumpLC cfg c s.lastLineAddition s.lastCol).1
                (bumpLC cfg c s.lastLineAddition s.lastCol).2).1
              (bumpLC cfg c2 (bumpLC cfg c s.lastLineAddition s.lastCol).1
                (bumpLC cfg c s.lastLineAddition s.lastCol).2).2 with
          | .error (bl', la', lc') =>
            .err .eof
              { s with input := [], lastByteLen := bl',
                       lastLineAddition := la', lastCol := lc' }
          | .ok (chars, bl', la', lc', rest') =>
            .tok
              { text := c :: c2 :: chars, numBytes := bl',
                numChars := (c :: c2 :: chars).length, firstRune := '/',
                type := .comment }
              { s with input := rest', lastByteLen := bl',
                       lastLineAddition := la', lastCol := lc' }
        else if c2 = '*' then
          match commentLoop cfg (rest2.length + 1) rest2 []
              (s.lastByteLen + c.utf8Size + c2.utf8Size)
              (bumpLC cfg c2 (bumpLC cfg c s.lastLineAddition s.lastCol).1
                (bumpLC cfg c s.lastLineAddition s.lastCol).2).1
              (bumpLC cfg c2 (bumpLC cfg c s.lastLineAddition s.lastCol).1
                (bumpLC cfg c s.lastLineAddition s.lastCol).2).2 with
          | .error (bl', la', lc') =>
            .err .eof
              { s with input := [], lastByteLen := bl',
                       lastLineAddition := la', lastCol := lc' }
          | .ok (chars, bl', la', lc', rest') =>
            .tok
              { text := c :: c2 :: chars, numBytes := bl',
                numChars := (c :: c2 :: chars).length, firstRune := '/',
                type := .comment }
              { s with input := rest', lastByteLen := bl',
                       lastLineAddition := la', lastCol := lc' }
        else .noMatch s
    else .noMatch s

/-- `update_pos`: fold the staged deltas of the previous token into the
position (offset gains the byte length, line gains the crossed lines, the
column becomes the staged column) and clear the byte/line deltas. -/
def updatePos (s : ScanState) : ScanState :=
  { s with
    pos := { offset := s.pos.offset + s.lastByteLen,
             line := s.pos.line + s.lastLineAddition,
             column := s.lastCol },
    lastByteLen := 0, lastLineAddition := 0 }

/-- Result of one `Scan` call: a surfaced token with the tokens discarded by
the skip flags on the way, or a stop (end of input, an error, or no
classifier applicable) with the discarded tokens and final error value. -/
inductive StepOut where
  | tok (t : Token) (skipped : List Token) (s : ScanState)
  | stop (skipped : List Token) (s : ScanState) (e : Option ScanError)
deriving Repr, DecidableEq

/-- Loop body of `Scan`: fold the staged deltas, then try the classifiers in
order — whitespace, comment, quoted string, identifier, number, symbol.  A
whitespace or comment token is discarded and the attempt repeated when the
corresponding skip flag is set.  If no classifier matches, scanning stops
with no error.  Fuel exceeds the input length at every call site and cannot
run out, since each discarded token consumes at least one rune. -/
def scanStepF (cfg : Config) : Nat → ScanState → List Token → StepOut
  | 0, s, sk => .stop sk s none
  | fuel + 1, s, sk =>
    match getWhitespace cfg (updatePos s) with
    | .tok t s1 =>
      if cfg.skipWhitespace then scanStepF cfg fuel s1 (sk ++ [t]) else .tok t sk s1
    | .err e s1 => .stop sk s1 (some e)
    | .noMatch s1 =>
      match getComment cfg s1 with
      | .tok t s2 =>
        if cfg.skipComments then scanStepF cfg fuel s2 (sk ++ [t]) else .tok t sk s2
      | .err e s2 => .stop sk s2 (some e)
      | .noMatch s2 =>
        match getQuoted cfg s2 with
        | .tok t s3 => .tok t sk s3
        | .err e s3 => .stop sk s3 (some e)
        | .noMatch s3 =>
          match getIdent cfg s3 with
          | .tok t s4 => .tok t sk s4
          | .err e s4 => .stop sk s4 (some e)
          | .noMatch s4 =>
            match getNumber cfg s4 with
            | .tok t s5 => .tok t sk s5
            | .err e s5 => .stop sk s5 (some e)
            | .noMatch s5 =>
              match getSymbol cfg s5 with
              | .tok t s6 => .tok t sk s6
              | .err e s6 => .stop sk s6 (some e)
              | .noMatch s6 => .stop sk s6 none

/-- One `Scan` call. -/
def scanStep (cfg : Config) (s : ScanState) : StepOut :=
  scanStepF cfg (s.input.length + 1) s []

/-- Repeated `Scan` calls until one fails: the list of surfaced tokens with
the position observed after each call, all discarded whitespace/comment
tokens, the final state and the final error.  Fuel as in `scanStepF`. -/
def scanRunF (cfg : Config) :
    Nat → ScanState → List (Token × Pos) × List Token × ScanState × Option ScanError
  | 0, s => ([], [], s, none)
  | fuel + 1, s =>
    match scanStep cfg s with
    | .tok t sk s' =>
      let r := scanRunF cfg fuel s'
      ((t, s'.pos) :: r.1, sk ++ r.2.1, r.2.2)
    | .stop sk s' e => ([], sk, s', e)

/-- The state `Init` produces for a given input: position (0, 1, 1), staged
deltas cleared, staged column 1. -/
def initState (inp : List Char) : ScanState :=
  { input := inp, pos := { offset := 0, line := 1, column := 1 },
    lastByteLen := 0, lastLineAddition := 0, lastCol := 1 }

/-- Scan a whole input from a fresh scanner. -/
def scanAll (cfg : Config) (inp : List Char) :
    List (Token × Pos) × List Token × ScanState × Option ScanError :=
  scanRunF cfg (inp.length + 1) (initState inp)

/-- Texts of the tokens surfaced when scanning `inp`. -/
def scanTexts (cfg : Config) (inp : List Char) : List (List Char) :=
  (scanAll cfg inp).1.map fun x => x.1.text

/-- Positions observed after each surfaced token when scanning `inp`. -/
def scanPositions (cfg : Config) (inp : List Char) : List Pos :=
  (scanAll cfg inp).1.map fun x => x.2

/-- Specification-side predicate: the input contains a closing rune that
terminates the quoted string, under the sequential escape rule — the first
occurrence of the closing rune terminates unless the rune immediately before
it (within the current segment) is an escape rune, in which case the search
resumes after it. -/
def hasUnescapedCloser (esc : Char → Bool) (close : Char) : List Char → Bool
  | [] => false
  | [a] => a = close
  | a :: b :: rest =>
    if a = close then true
    else if b = close ∧ esc a then hasUnescapedCloser esc close rest
    else hasUnescapedCloser esc close (b :: rest)

/-- Specification-side transformation of a quoted-string body: each escape
rune immediately preceding an occurrence of the closing rune is removed,
the closing-rune occurrence it protected is kept as content, and the scan
resumes after it. -/
def stripEscapes (esc : Char → Bool) (close : Char) : List Char → List Char
  | [] => []
  | [a] => [a]
  | a :: b :: rest =>
    if a = close then a :: b :: rest
    else if b = close ∧ esc a then b :: stripEscapes esc close rest
    else a :: stripEscapes esc close (b :: rest)

/-- Total UTF-8 length of the tokens in a list. -/
def tokensBytes (ts : List Token) : Nat := (ts.map Token.numBytes).sum

/-- Modelled from the spec: the `UnreadToken` mechanism is absent from the
scanner source available here (only its test, `TestUnreadToken`, is
present).  Per the spec, the scanner holds at most one (token, position)
pair captured from the immediately preceding successful scan step, plus a
pending-redelivery flag. -/
structure PBState where
  base : ScanState
  lastPair : Option (Token × Pos)
  pending : Bool
deriving Repr, DecidableEq

/-- Modelled from the spec: `UnreadToken` marks the held pair as pending
redelivery. -/
def unreadToken (ps : PBState) : PBState := { ps with pending := true }

/-- Modelled from the spec: a scan step with pushback.  When a redelivery is
pending, the held (token, position) pair is redelivered unchanged and the
flag cleared, without running any classifier; otherwise an ordinary scan
step runs and, on success, its (token, position) pair is captured. -/
def pbScanStep (cfg : Config) (ps : PBState) : Option (Token × Pos) × PBState :=
  if ps.pending ∧ ps.lastPair.isSome then
    (ps.lastPair, { ps with pending := false })
  else
    match scanStep cfg ps.base with
    | .tok t _ s' =>
      (some (t, s'.pos), { base := s', lastPair := some (t, s'.pos), pending := false })
    | .stop _ s' _ =>
      (none, { base := s', lastPair := ps.lastPair, pending := false })

/-- The token of a classifier result, if any. -/
def CRes.tokOf : CRes → Option Token
  | .tok t _ => some t
  | .noMatch _ => none
  | .err _ _ => none

/-- Invariant carried through `numberAux`: the accepted runes split into an
optional leading minus, a first digit run, an optional decimal point and a
second digit run; the flags reflect the split; and — when the last accepted
rune is the minus or the point — the 2-rune lookahead guarantees that the
next input rune is a digit. -/
def NumInv (cfg : Config) (runes inp : List Char) (fd fdec isf : Bool) : Prop :=
  ∃ m d1 dec d2,
    runes = m ++ d1 ++ dec ++ d2 ∧
    (m = [] ∨ m = ['-']) ∧
    (∀ x ∈ d1, cfg.isDigitRune x = true) ∧
    (dec = [] ∨ dec = ['.']) ∧
    (∀ x ∈ d2, cfg.isDigitRune x = true) ∧
    (fd = true ↔ d1 ≠ []) ∧
    (fdec = true ↔ dec ≠ []) ∧
    isf = fdec ∧
    (dec = [] → d2 = []) ∧
    (dec ≠ [] → d1 ≠ []) ∧
    (m ≠ [] ∧ d1 = [] → ∃ d r, inp = d :: r ∧ cfg.isDigitRune d = true) ∧
    (dec ≠ [] ∧ d2 = [] → ∃ d r, inp = d :: r ∧ cfg.isDigitRune d = true)

/-- C1: the claimed conservation law — surfaced token bytes plus skipped
whitespace/comment token bytes equal the input byte length — fails on the
input `/**/`: the scan completes (all input consumed, final error is the
EOF sentinel), the block comment is tokenized and skipped, but its
`NumBytes` is 3 while the input is 4 bytes, because the rune consumed after
each `*` inside a block comment is never added to `last_byte_len`. -/
theorem byte_conservation_fails_on_block_comment :
    (scanAll defaultConfig ("/**/".toList)).1 = [] ∧
    (scanAll defaultConfig ("/**/".toList)).2.1 =
      [{ text := "/**/".toList, numBytes := 3, numChars := 4,
         firstRune := '/', type := .comment }] ∧
    (scanAll defaultConfig ("/**/".toList)).2.2.1.input = [] ∧
    (scanAll defaultConfig ("/**/".toList)).2.2.2 = some .eof ∧
    tokensBytes ((scanAll defaultConfig ("/**/".toList)).1.map Prod.fst) +
      tokensBytes (scanAll defaultConfig ("/**/".toList)).2.1 = 3 ∧
    utf8Len ("/**/".toList) = 4 := by
  decide

/-- C2: the claimed position invariant — after every successful scan step
the position holds the start coordinates of the returned token — holds on
the spec's example `foo = 'bar'\nbar = 'foo'`, but fails after a block
comment: scanning `/**/x` surfaces the identifier `x` with position
(offset 3, line 1, column 4), although `x` starts at byte offset 4
(= the byte length of `/**/`) and column 5, because the rune consumed
after each `*` in a block comment is counted in neither the staged byte
delta nor the staged column. -/
theorem position_after_block_comment_wrong :
    scanPositions defaultConfig ("foo = 'bar'\nbar = 'foo'".toList) =
      [{ offset := 0, line := 1, column := 1 }, { offset := 4, line := 1, column := 5 },
       { offset := 6, line := 1, column := 7 }, { offset := 12, line := 2, column := 1 },
       { offset := 16, line := 2, column := 5 }, { offset := 18, line := 2, column := 7 }] ∧
    scanTexts defaultConfig ("/**/x".toList) = [['x']] ∧
    scanPositions defaultConfig ("/**/x".toList) =
      [{ offset := 3, line := 1, column := 4 }] ∧
    utf8Len ("/**/".toList) = 4 ∧
    ({ offset := 3, line := 1, column := 4 } : Pos) ≠
      { offset := 4, line := 1, column := 5 } := by
  decide

/-- C7: under the default symbol predicate of this source, Symbol tokens are
*not* limited to one rune: scanning `foo += 5` produces a single two-rune
Symbol token `+=` (the repository's own `TestSeparateSymbols` expects the
two one-rune tokens `+` and `=` here). -/
theorem default_symbol_token_two_runes :
    scanTexts defaultConfig ("foo += 5".toList) =
      ["foo".toList, "+=".toList, "5".toList] ∧
    (scanAll defaultConfig ("foo += 5".toList)).1.map
        (fun x => (x.1.numChars, x.1.type)) =
      [(3, .ident), (2, .symbol), (1, .int)] ∧
    scanTexts defaultConfig ("foo += 5".toList) ≠
      ["foo".toList, "+".toList, "=".toList, "5".toList] := by
  decide

theorem getGeneral_err_eof (cfg : Config) (ty : TokenType) (check : Char → Bool)
    (exc : List (Char → Bool)) (s : ScanState) (e : ScanError) (s' : ScanState)
    (h : getGeneral cfg ty check exc s = .err e s') : e = .eof := by
  unfold getGeneral at h
  split at h
  · simp only [CRes.err.injEq] at h
    exact h.1.symm
  · split at h <;> simp at h

theorem getIdent_err_eof (cfg : Config) (s : ScanState) (e : ScanError) (s' : ScanState)
    (h : getIdent cfg s = .err e s') : e = .eof := by
  unfold getIdent at h
  split at h
  · simp only [CRes.err.injEq] at h
    exact h.1.symm
  · split at h <;> simp at h

theorem getNumber_err_eof (cfg : Config) (s : ScanState) (e : ScanError) (s' : ScanState)
    (h : getNumber cfg s = .err e s') : e = .eof := by
  unfold getNumber at h
  split at h
  · simp only [CRes.err.injEq] at h
    exact h.1.symm
  · split at h <;> simp at h

theorem getComment_err_eof (cfg : Config) (s : ScanState) (e : ScanError) (s' : ScanState)
    (h : getComment cfg s = .err e s') : e = .eof := by
  unfold getComment at h
  split at h
  · simp only [CRes.err.injEq] at h
    exact h.1.symm
  · split at h
    · split at h
      · simp at h
      · split at h
        · split at h
          · simp only [CRes.err.injEq] at h
            exact h.1.symm
          · simp at h
        · split at h
          · split at h
            · simp only [CRes.err.injEq] at h
              exact h.1.symm
            · simp at h
          · simp at h
    · simp at h

theorem getQuoted_unterminated_input_empty (cfg : Config) (s : ScanState) (p : Pos)
    (c : Char) (s' : ScanState) (h : getQuoted cfg s = .err (.unterminated p c) s') :
    s'.input = [] := by
  unfold getQuoted at h
  split at h
  · simp at h
  · split at h
    · split at h
      · simp only [CRes.err.injEq] at h
        rw [← h.2]
      · simp at h
    · simp at h

theorem scanStepF_unterminated_input_empty (cfg : Config) :
    ∀ fuel s sk sk' s' p c,
      scanStepF cfg fuel s sk = .stop sk' s' (some (.unterminated p c)) →
      s'.input = [] := by
  intro fuel
  induction fuel with
  | zero =>
    intro s sk sk' s' p c h
    simp [scanStepF] at h
  | succ n ih =>
    intro s sk sk' s' p c h
    unfold scanStepF at h
    split at h
    · split at h
      · exact ih _ _ _ _ _ _ h
      · simp at h
    · rename_i e1 s1 heq
      simp only [StepOut.stop.injEq, Option.some.injEq] at h
      rw [getGeneral_err_eof _ _ _ _ _ _ _ heq] at h
      simp at h
    · split at h
      · split at h
        · exact ih _ _ _ _ _ _ h
        · simp at h
      · rename_i e2 s2 heq
        simp only [StepOut.stop.injEq, Option.some.injEq] at h
        rw [getComment_err_eof _ _ _ _ heq] at h
        simp at h
      · split at h
        · simp at h
        · rename_i e3 s3 heq
          simp only [StepOut.stop.injEq, Option.some.injEq] at h
          obtain ⟨_, hs, he⟩ := h
          rw [he] at heq
          rw [← hs]
          exact getQuoted_unterminated_input_empty cfg _ _ _ _ heq
        · split at h
          · simp at h
          · rename_i e4 s4 heq
            simp only [StepOut.stop.injEq, Option.some.injEq] at h
            rw [getIdent_err_eof _ _ _ _ heq] at h
            simp at h
          · split at h
            · simp at h
            · rename_i e5 s5 heq
              simp only [StepOut.stop.injEq, Option.some.injEq] at h
              rw [getNumber_err_eof _ _ _ _ heq] at h
              simp at h
            · split at h
              · simp at h
              · rename_i e6 s6 heq
                simp only [StepOut.stop.injEq, Option.some.injEq] at h
                rw [getGeneral_err_eof _ _ _ _ _ _ _ heq] at h
                simp at h
              · simp at h

/-- C8: when a scan step reports the fatal unterminated-string error, the
scanner has consumed its entire input; from then on every scan call
produces no token and consumes no input (it stops immediately with the EOF
sentinel), so no further scanning happens until re-initialization. -/
theorem fatal_error_terminal (cfg : Config) (s : ScanState) (sk : List Token)
    (s' : ScanState) (p : Pos) (c : Char)
    (h : scanStep cfg s = .stop sk s' (some (.unterminated p c))) :
    s'.input = [] ∧
    ∀ u : ScanState, u.input = [] →
      scanStep cfg u = .stop [] (updatePos u) (some .eof) ∧ (updatePos u).input = [] := by
  refine ⟨scanStepF_unterminated_input_empty cfg _ s [] sk s' p c h, ?_⟩
  intro u hu
  constructor
  · simp [scanStep, hu, scanStepF, getWhitespace, getGeneral, generalAux, updatePos]
  · simp [updatePos, hu]

/-- Concrete check of `fatal_error_terminal` on the unterminated input
`"ab`. -/
theorem fatal_error_terminal_check :
    ({ input := [], pos := { offset := 0, line := 1, column := 1 },
       lastByteLen := 3, lastLineAddition := 0, lastCol := 3 } : ScanState).input = [] :=
  (fatal_error_terminal defaultConfig (initState ("\"ab".toList)) []
    { input := [], pos := { offset := 0, line := 1, column := 1 },
      lastByteLen := 3, lastLineAddition := 0, lastCol := 3 }
    { offset := 0, line := 1, column := 1 } '"' (by decide)).1

/-- C9: after a successful scan step delivering the pair (t, p), invoking
the pushback and scanning again redelivers exactly the same (token,
position) pair and leaves the scanner in the same state as before the
pushback, so scanning continues with the remaining tokens unchanged. -/
theorem unreadToken_redelivers (cfg : Config) (ps ps' : PBState) (t : Token) (p : Pos)
    (h : pbScanStep cfg ps = (some (t, p), ps')) :
    pbScanStep cfg (unreadToken ps') = (some (t, p), ps') := by
  unfold pbScanStep at h
  by_cases hp : ps.pending ∧ ps.lastPair.isSome
  · rw [if_pos hp] at h
    simp only [Prod.mk.injEq] at h
    obtain ⟨h1, h2⟩ := h
    subst h2
    simp [pbScanStep, unreadToken, h1]
  · rw [if_neg hp] at h
    cases hs : scanStep cfg ps.base with
    | tok t0 sk s0 =>
      rw [hs] at h
      simp only [Prod.mk.injEq, Option.some.injEq] at h
      obtain ⟨⟨ht, hpos⟩, h2⟩ := h
      subst ht hpos h2
      simp [pbScanStep, unreadToken]
    | stop sk s0 e =>
      rw [hs] at h
      simp at h

/-- Concrete check of `unreadToken_redelivers`: on `foo += 5`, the first
scan step surfaces `foo` at (0, 1, 1); pushing back and re-scanning
redelivers that exact pair and state. -/
theorem unreadToken_redelivers_check :
    pbScanStep defaultConfig (unreadToken
      (pbScanStep defaultConfig
        { base := initState ("foo += 5".toList), lastPair := none, pending := false }).2) =
    (some ({ text := "foo".toList, numBytes := 3, numChars := 3,
             firstRune := 'f', type := .ident },
           { offset := 0, line := 1, column := 1 }),
     (pbScanStep defaultConfig
        { base := initState ("foo += 5".toList), lastPair := none, pending := false }).2) :=
  unreadToken_redelivers defaultConfig
    { base := initState ("foo += 5".toList), lastPair := none, pending := false }
    _ _ _ (by decide)

@[simp]
theorem utf8Len_nil : utf8Len [] = 0 := rfl

@[simp]
theorem utf8Len_cons (c : Char) (l : List Char) :
    utf8Len (c :: l) = c.utf8Size + utf8Len l := by
  simp [utf8Len]

@[simp]
theorem utf8Len_append (l1 l2 : List Char) :
    utf8Len (l1 ++ l2) = utf8Len l1 + utf8Len l2 := by
  simp [utf8Len]

theorem getD_append_cons {α : Type} (d b : α) :
    ∀ (xs zs : List α), (xs ++ b :: zs).getD xs.length d = b := by
  intro xs
  induction xs with
  | nil => intro zs; rfl
  | cons a xs ih => intro zs; simpa using ih zs

theorem exists_first_split {α : Type} [DecidableEq α] (a : α) (l : List α) (h : a ∈ l) :
    ∃ pre rest, l = pre ++ a :: rest ∧ a ∉ pre := by
  induction l with
  | nil => cases h
  | cons b l ih =>
    by_cases hb : b = a
    · subst hb
      exact ⟨[], l, rfl, by simp⟩
    · have h' : a ∈ l := by
        cases h with
        | head => exact absurd rfl hb
        | tail _ h => exact h
      obtain ⟨pre, rest, hl, hna⟩ := ih h'
      refine ⟨b :: pre, rest, by rw [hl]; rfl, ?_⟩
      simp only [List.mem_cons, not_or]
      exact ⟨Ne.symm hb, hna⟩

theorem readUntil_error_not_mem (cfg : Config) (endCh : Char) (hne : endCh ≠ cfg.eol) :
    ∀ inp acc bl la lc, endCh ∉ inp →
      ∃ e, readUntil cfg endCh inp acc bl la lc = .error e := by
  intro inp
  induction inp with
  | nil =>
    intro acc bl la lc _
    exact ⟨(bl, la, lc), by simp [readUntil, hne]⟩
  | cons c rest ih =>
    intro acc bl la lc hm
    have hc : ¬ (c = endCh) := by
      intro hc
      exact hm (by rw [hc]; exact List.mem_cons_self _ _)
    simp only [readUntil, hc, if_false]
    exact ih _ _ _ _ (fun hx => hm (List.mem_cons_of_mem _ hx))

theorem readUntil_ok_split (cfg : Config) (endCh : Char) :
    ∀ pre rest acc bl la lc, endCh ∉ pre →
      ∃ la' lc', readUntil cfg endCh (pre ++ endCh :: rest) acc bl la lc =
        .ok (acc ++ pre ++ [endCh], bl + utf8Len pre + endCh.utf8Size, la', lc', rest) := by
  intro pre
  induction pre with
  | nil =>
    intro rest acc bl la lc _
    refine ⟨(bumpLC cfg endCh la lc).1, (bumpLC cfg endCh la lc).2, ?_⟩
    simp [readUntil]
  | cons c pre ih =>
    intro rest acc bl la lc hm
    have hc : ¬ (c = endCh) := by
      intro hc
      exact hm (by rw [hc]; exact List.mem_cons_self _ _)
    have hm' : endCh ∉ pre := fun hx => hm (List.mem_cons_of_mem _ hx)
    obtain ⟨la', lc', hr⟩ := ih rest (acc ++ [c]) (bl + c.utf8Size)
      (bumpLC cfg c la lc).1 (bumpLC cfg c la lc).2 hm'
    refine ⟨la', lc', ?_⟩
    simp only [List.cons_append, readUntil, hc, if_false, utf8Len_cons]
    have e1 : bl + (c.utf8Size + utf8Len pre) = bl + c.utf8Size + utf8Len pre := by omega
    have e2 : acc ++ c :: pre = acc ++ [c] ++ pre := by simp
    rw [e1, e2]
    exact hr

theorem readUntil_ok_inv (cfg : Config) (endCh : Char) (hne : endCh ≠ cfg.eol) :
    ∀ inp acc bl la lc runes bl' la' lc' rest,
      readUntil cfg endCh inp acc bl la lc = .ok (runes, bl', la', lc', rest) →
      ∃ pre, inp = pre ++ endCh :: rest ∧ endCh ∉ pre ∧
        runes = acc ++ pre ++ [endCh] ∧ bl' = bl + utf8Len pre + endCh.utf8Size := by
  intro inp
  induction inp with
  | nil =>
    intro acc bl la lc runes bl' la' lc' rest h
    simp [readUntil, hne] at h
  | cons c rest0 ih =>
    intro acc bl la lc runes bl' la' lc' rest h
    by_cases hc : c = endCh
    · subst hc
      simp only [readUntil, if_true, Except.ok.injEq, Prod.mk.injEq, ite_self,
        eq_self_iff_true, true_and] at h
      obtain ⟨h1, h2, h3, h4, h5⟩ := h
      refine ⟨[], ?_, by simp, ?_, ?_⟩
      · rw [h5]
        rfl
      · rw [← h1]
        simp
      · rw [← h2]
        simp
    · simp only [readUntil, hc, if_false] at h
      obtain ⟨pre, hi, hm, hr, hb⟩ := ih _ _ _ _ _ _ _ _ _ h
      refine ⟨c :: pre, by rw [hi]; rfl, ?_, ?_, ?_⟩
      · simp only [List.mem_cons, not_or]
        exact ⟨Ne.symm hc, hm⟩
      · rw [hr]
        simp
      · rw [hb]
        simp only [utf8Len_cons]
        omega

theorem hasUC_head (esc : Char → Bool) (close : Char) (rest : List Char) :
    hasUnescapedCloser esc close (close :: rest) = true := by
  cases rest <;> simp [hasUnescapedCloser]

theorem hasUC_cons_ne (esc : Char → Bool) (close x y : Char) (rest : List Char)
    (hx : x ≠ close) (hc : ¬ (y = close ∧ esc x = true)) :
    hasUnescapedCloser esc close (x :: y :: rest) =
      hasUnescapedCloser esc close (y :: rest) := by
  simp [hasUnescapedCloser, hx, hc]

theorem hasUC_concat (esc : Char → Bool) (close : Char) :
    ∀ (pre' : List Char) (b : Char) (rest : List Char), close ∉ pre' → b ≠ close →
      hasUnescapedCloser esc close (pre' ++ b :: close :: rest) =
        (if esc b then hasUnescapedCloser esc close rest else true) := by
  intro pre'
  induction pre' with
  | nil =>
    intro b rest _ hb
    by_cases he : esc b = true <;>
      simp [hasUnescapedCloser, hb, he, hasUC_head]
  | cons a pre'' ih =>
    intro b rest hm hb
    have ha : a ≠ close := by
      simp only [List.mem_cons, not_or] at hm
      exact Ne.symm hm.1
    have hm' : close ∉ pre'' := by
      simp only [List.mem_cons, not_or] at hm
      exact hm.2
    cases pre'' with
    | nil =>
      simp only [List.cons_append, List.nil_append]
      rw [hasUC_cons_ne esc close a b _ ha (fun hx => hb hx.1)]
      have := ih b rest (by simp) hb
      simpa using this
    | cons c2 pre3 =>
      have hc2 : c2 ≠ close := by
        simp only [List.mem_cons, not_or] at hm'
        exact Ne.symm hm'.1
      simp only [List.cons_append]
      rw [hasUC_cons_ne esc close a c2 _ ha (fun hx => hc2 hx.1)]
      have := ih b rest hm' hb
      simpa using this

theorem strip_head (esc : Char → Bool) (close : Char) (rest : List Char) :
    stripEscapes esc close (close :: rest) = close :: rest := by
  cases rest <;> simp [stripEscapes]

theorem strip_cons_ne (esc : Char → Bool) (close x y : Char) (rest : List Char)
    (hx : x ≠ close) (hc : ¬ (y = close ∧ esc x = true)) :
    stripEscapes esc close (x :: y :: rest) =
      x :: stripEscapes esc close (y :: rest) := by
  simp [stripEscapes, hx, hc]

theorem strip_escaped (esc : Char → Bool) (close : Char) :
    ∀ (pre' : List Char) (b : Char) (rest : List Char),
      close ∉ pre' → b ≠ close → esc b = true →
      stripEscapes esc close (pre' ++ b :: close :: rest) =
        pre' ++ close :: stripEscapes esc close rest := by
  intro pre'
  induction pre' with
  | nil =>
    intro b rest _ hb he
    simp [stripEscapes, hb, he]
  | cons a pre'' ih =>
    intro b rest hm hb he
    have ha : a ≠ close := by
      simp only [List.mem_cons, not_or] at hm
      exact Ne.symm hm.1
    have hm' : close ∉ pre'' := by
      simp only [List.mem_cons, not_or] at hm
      exact hm.2
    cases pre'' with
    | nil =>
      simp only [List.cons_append, List.nil_append]
      rw [strip_cons_ne esc close a b _ ha (fun hx => hb hx.1)]
      have := ih b rest (by simp) hb he
      simp only [List.nil_append] at this
      rw [this]
    | cons c2 pre3 =>
      have hc2 : c2 ≠ close := by
        simp only [List.mem_cons, not_or] at hm'
        exact Ne.symm hm'.1
      simp only [List.cons_append]
      rw [strip_cons_ne esc close a c2 _ ha (fun hx => hc2 hx.1)]
      have := ih b rest hm' hb he
      simp only [List.cons_append] at this
      rw [this]

theorem strip_unescaped (esc : Char → Bool) (close : Char) :
    ∀ (pre' : List Char) (b : Char) (rest : List Char),
      close ∉ pre' → b ≠ close → esc b = false →
      stripEscapes esc close (pre' ++ b :: close :: rest) =
        pre' ++ b :: close :: rest := by
  intro pre'
  induction pre' with
  | nil =>
    intro b rest _ hb he
    simp only [List.nil_append]
    rw [strip_cons_ne esc close b close rest hb (by
      intro hx
      rw [he] at hx
      exact Bool.false_ne_true hx.2)]
    rw [strip_head]
  | cons a pre'' ih =>
    intro b rest hm hb he
    have ha : a ≠ close := by
      simp only [List.mem_cons, not_or] at hm
      exact Ne.symm hm.1
    have hm' : close ∉ pre'' := by
      simp only [List.mem_cons, not_or] at hm
      exact hm.2
    cases pre'' with
    | nil =>
      simp only [List.cons_append, List.nil_append]
      rw [strip_cons_ne esc close a b _ ha (fun hx => hb hx.1)]
      have := ih b rest (by simp) hb he
      simp only [List.nil_append] at this
      rw [this]
    | cons c2 pre3 =>
      have hc2 : c2 ≠ close := by
        simp only [List.mem_cons, not_or] at hm'
        exact Ne.symm hm'.1
      simp only [List.cons_append]
      rw [strip_cons_ne esc close a c2 _ ha (fun hx => hc2 hx.1)]
      have := ih b rest hm' hb he
      simp only [List.cons_append] at this
      rw [this]

theorem quotedLoop_error_of_no_closer (cfg : Config) (close : Char) (hne : close ≠ cfg.eol) :
    ∀ fuel inp all bl la lc,
      hasUnescapedCloser cfg.isEscapeRune close inp = false →
      inp.length < 2 * fuel →
      ∃ e, quotedLoop cfg close fuel inp all bl la lc = .error e := by
  intro fuel
  induction fuel with
  | zero =>
    intro inp all bl la lc _ hl
    exact absurd hl (by omega)
  | succ n ih =>
    intro inp all bl la lc hx hl
    by_cases hm : close ∈ inp
    · obtain ⟨pre, rest1, hi, hnp⟩ := exists_first_split close inp hm
      subst hi
      rcases List.eq_nil_or_concat pre with hp | ⟨pre', b, hp⟩
      · subst hp
        rw [List.nil_append, hasUC_head] at hx
        cases hx
      · rw [List.concat_eq_append] at hp
        subst hp
        have hb : b ≠ close := by
          intro hx2
          exact hnp (List.mem_append_right _ (by rw [hx2]; exact List.mem_cons_self _ _))
        have hp' : close ∉ pre' := fun hx2 => hnp (List.mem_append_left _ hx2)
        have hx' : hasUnescapedCloser cfg.isEscapeRune close (pre' ++ b :: close :: rest1)
            = false := by
          rw [← hx]
          congr 1
          simp
        rw [hasUC_concat cfg.isEscapeRune close pre' b rest1 hp' hb] at hx'
        by_cases he : cfg.isEscapeRune b = true
        · rw [if_pos he] at hx'
          obtain ⟨la2, lc2, hr⟩ :=
            readUntil_ok_split cfg close (pre' ++ [b]) rest1 [] bl la lc hnp
          simp only [quotedLoop, hr]
          rw [if_pos ?pcond]
          case pcond =>
            constructor
            · simp
            · have hidx : (([] : List Char) ++ (pre' ++ [b]) ++ [close]).length - 2
                  = pre'.length := by simp
              rw [hidx]
              have hgd : (([] : List Char) ++ (pre' ++ [b]) ++ [close]).getD
                  pre'.length (Char.ofNat 0) = b := by
                rw [show ([] : List Char) ++ (pre' ++ [b]) ++ [close]
                    = pre' ++ b :: [close] from by simp]
                exact getD_append_cons _ _ _ _
              rw [hgd]
              exact he
          apply ih rest1 _ _ la2 lc2 hx'
          have hll := hl
          simp only [List.length_append, List.length_cons] at hll
          omega
        · simp [he] at hx'
    · obtain ⟨e, hr⟩ := readUntil_error_not_mem cfg close hne inp [] bl la lc hm
      exact ⟨e, by simp only [quotedLoop, hr]⟩

theorem quotedLoop_ok_spec (cfg : Config) (close : Char) (hne : close ≠ cfg.eol) :
    ∀ fuel inp all bl la lc allR bl' la' lc' rest,
      quotedLoop cfg close fuel inp all bl la lc = .ok (allR, bl', la', lc', rest) →
      ∃ body, inp = body ++ rest ∧
        allR = all ++ stripEscapes cfg.isEscapeRune close body ∧
        bl' = bl + utf8Len body ∧
        body.getLast? = some close ∧
        (stripEscapes cfg.isEscapeRune close body).getLast? = some close := by
  intro fuel
  induction fuel with
  | zero =>
    intro inp all bl la lc allR bl' la' lc' rest h
    simp [quotedLoop] at h
  | succ n ih =>
    intro inp all bl la lc allR bl' la' lc' rest h
    simp only [quotedLoop] at h
    split at h
    · simp at h
    · rename_i v runes bl1 la1 lc1 rest1 heq
      obtain ⟨pre, hi, hnp, hrunes, hbl⟩ :=
        readUntil_ok_inv cfg close hne inp [] bl la lc _ _ _ _ _ heq
      rw [List.nil_append] at hrunes
      split at h
      · rename_i hcond
        obtain ⟨hlen, hesc⟩ := hcond
        rcases List.eq_nil_or_concat pre with hp | ⟨pre', b, hp⟩
        · subst hp
          rw [hrunes] at hlen
          simp at hlen
        · rw [List.concat_eq_append] at hp
          subst hp
          have hb : b ≠ close := by
            intro hx2
            exact hnp (List.mem_append_right _ (by rw [hx2]; exact List.mem_cons_self _ _))
          have hp' : close ∉ pre' := fun hx2 => hnp (List.mem_append_left _ hx2)
          have hru : runes = pre' ++ b :: [close] := by
            rw [hrunes]
            simp
          have hidx : runes.length - 2 = pre'.length := by
            rw [hru]
            simp
          have hgd : runes.getD (runes.length - 2) (Char.ofNat 0) = b := by
            rw [hidx, hru]
            exact getD_append_cons _ _ _ _
          have hesc' : cfg.isEscapeRune b = true := by
            rw [← hgd]
            exact hesc
          have htake : runes.take (runes.length - 2) = pre' := by
            rw [hidx, hru]
            exact List.take_left pre' _
          have hidx1 : runes.length - 1 = (pre' ++ [b]).length := by
            rw [hru]
            simp
          have hdrop : runes.drop (runes.length - 1) = [close] := by
            rw [hidx1, hrunes]
            exact List.drop_left _ _
          rw [htake, hdrop] at h
          obtain ⟨body2, hi2, ha2, hb2, hl2, hl3⟩ :=
            ih rest1 _ bl1 la1 lc1 allR bl' la' lc' rest h
          refine ⟨(pre' ++ [b]) ++ close :: body2, ?_, ?_, ?_, ?_, ?_⟩
          · rw [hi, hi2]
            simp
          · rw [ha2, show (pre' ++ [b]) ++ close :: body2
                = pre' ++ b :: close :: body2 from by simp,
              strip_escaped cfg.isEscapeRune close pre' b body2 hp' hb hesc']
            simp
          · rw [hb2, hbl]
            simp only [utf8Len_append, utf8Len_cons, utf8Len_nil]
            omega
          · rw [List.getLast?_append_cons]
            cases hbody2 : body2 with
            | nil =>
              rw [hbody2] at hl2
              simp at hl2
            | cons x xs =>
              rw [List.getLast?_cons_cons, ← hbody2]
              exact hl2
          · rw [show (pre' ++ [b]) ++ close :: body2
                = pre' ++ b :: close :: body2 from by simp,
              strip_escaped cfg.isEscapeRune close pre' b body2 hp' hb hesc',
              List.getLast?_append_cons]
            cases hbody2 : stripEscapes cfg.isEscapeRune close body2 with
            | nil =>
              rw [hbody2] at hl3
              simp at hl3
            | cons x xs =>
              rw [List.getLast?_cons_cons, ← hbody2]
              exact hl3
      · rename_i hcond
        simp only [Except.ok.injEq, Prod.mk.injEq] at h
        obtain ⟨ha, hbb, _, _, hrst⟩ := h
        have hstrip : stripEscapes cfg.isEscapeRune close (pre ++ [close]) = pre ++ [close] := by
          rcases List.eq_nil_or_concat pre with hp | ⟨pre', b, hp⟩
          · subst hp
            simp only [List.nil_append]
            rw [show [close] = close :: ([] : List Char) from rfl, strip_head]
          · rw [List.concat_eq_append] at hp
            subst hp
            have hb : b ≠ close := by
              intro hx2
              exact hnp (List.mem_append_right _ (by rw [hx2]; exact List.mem_cons_self _ _))
            have hp' : close ∉ pre' := fun hx2 => hnp (List.mem_append_left _ hx2)
            have hesc0 : cfg.isEscapeRune b = false := by
              by_contra hx2
              apply hcond
              constructor
              · rw [hrunes]
                simp
              · have hidx : runes.length - 2 = pre'.length := by
                  rw [hrunes]
                  simp
                have hgd : runes.getD (runes.length - 2) (Char.ofNat 0) = b := by
                  rw [hidx, hrunes, show (pre' ++ [b]) ++ [close]
                      = pre' ++ b :: [close] from by simp]
                  exact getD_append_cons _ _ _ _
                rw [hgd]
                exact Bool.of_not_eq_false hx2
            rw [show (pre' ++ [b]) ++ [close]
                = pre' ++ b :: close :: ([] : List Char) from by simp,
              strip_unescaped cfg.isEscapeRune close pre' b [] hp' hb hesc0]
        refine ⟨pre ++ [close], ?_, ?_, ?_, ?_, ?_⟩
        · rw [hi, hrst]
          simp
        · rw [← ha, hrunes, hstrip]
        · rw [← hbb, hbl]
          simp only [utf8Len_append, utf8Len_cons, utf8Len_nil]
          omega
        · rw [List.getLast?_append_cons]
          rfl
        · rw [hstrip, List.getLast?_append_cons]
          rfl

theorem getGeneral_noMatch_head (cfg : Config) (ty : TokenType) (check : Char → Bool)
    (exc : List (Char → Bool)) (s : ScanState) (c : Char) (rest : List Char)
    (hin : s.input = c :: rest) (hc : check c = false) :
    getGeneral cfg ty check exc s = .noMatch s := by
  unfold getGeneral
  rw [hin]
  simp [generalAux, hc]

theorem getComment_noMatch_ne (cfg : Config) (s : ScanState) (c : Char) (rest : List Char)
    (hin : s.input = c :: rest) (hc : c ≠ '/') :
    getComment cfg s = .noMatch s := by
  unfold getComment
  rw [hin]
  simp [hc]

theorem scanStep_quoted_err (cfg : Config) (s : ScanState) (e : ScanError) (s' : ScanState)
    (hw : getWhitespace cfg (updatePos s) = .noMatch (updatePos s))
    (hcm : getComment cfg (updatePos s) = .noMatch (updatePos s))
    (hq : getQuoted cfg (updatePos s) = .err e s') :
    scanStep cfg s = .stop [] s' (some e) := by
  unfold scanStep
  simp only [scanStepF, hw, hcm, hq]

theorem getQuoted_unterminated_of_no_closer (cfg : Config) (s : ScanState)
    (c close : Char) (rest : List Char)
    (hin : s.input = c :: rest)
    (hq : cfg.isQuoteRune c = (true, close))
    (hneol : close ≠ cfg.eol)
    (hnc : hasUnescapedCloser cfg.isEscapeRune close rest = false) :
    ∃ s', getQuoted cfg s = .err (.unterminated s.pos close) s' ∧ s'.input = [] := by
  obtain ⟨e, hql⟩ := quotedLoop_error_of_no_closer cfg close hneol (rest.length + 1) rest []
    (s.lastByteLen + c.utf8Size) s.lastLineAddition s.lastCol hnc (by omega)
  obtain ⟨bl', la', lc'⟩ := e
  refine ⟨{ s with input := [], lastByteLen := bl', lastLineAddition := la', lastCol := lc' }, ?_, rfl⟩
  unfold getQuoted
  rw [hin]
  simp [hq, hql]

/-- C3: if a scan step under the default configuration reaches an opening
quote rune and the remaining input holds no unescaped occurrence of the
matching closing rune, the step fails with the fatal unterminated-string
error, which carries the position where the quoted token began (the
position after folding the staged deltas) and the expected closing rune;
no token is surfaced and the whole input has been consumed. -/
theorem unterminated_quote_fatal (s : ScanState) (c close : Char) (rest : List Char)
    (hin : s.input = c :: rest)
    (hq : IsQuoteRune c = (true, close))
    (hnc : hasUnescapedCloser IsEscapeRune close rest = false) :
    ∃ s', scanStep defaultConfig s =
        .stop [] s' (some (.unterminated (updatePos s).pos close)) ∧
      s'.input = [] := by
  have hcq : (c = '"' ∨ c = '\'' ∨ c = Char.ofNat 96) ∧ close = c := by
    unfold IsQuoteRune at hq
    split_ifs at hq with h1 h2 h3
    · simp only [Prod.mk.injEq] at hq
      exact ⟨Or.inl h1, hq.2.symm.trans h1.symm⟩
    · simp only [Prod.mk.injEq] at hq
      exact ⟨Or.inr (Or.inl h2), hq.2.symm.trans h2.symm⟩
    · simp only [Prod.mk.injEq] at hq
      exact ⟨Or.inr (Or.inr h3), hq.2.symm.trans h3.symm⟩
    · simp only [Prod.mk.injEq] at hq
      exact absurd hq.1 (by simp)
  obtain ⟨hc3, hcc⟩ := hcq
  have hsp : defaultConfig.isSpaceRune c = false := by
    rcases hc3 with h | h | h <;> rw [h] <;> decide
  have hslash : c ≠ '/' := by
    rcases hc3 with h | h | h <;> rw [h] <;> decide
  have hneol : close ≠ defaultConfig.eol := by
    rw [hcc]
    rcases hc3 with h | h | h <;> rw [h] <;> decide
  have hin0 : (updatePos s).input = c :: rest := hin
  obtain ⟨s', hq', hs'⟩ := getQuoted_unterminated_of_no_closer defaultConfig (updatePos s)
    c close rest hin0 hq hneol hnc
  refine ⟨s', ?_, hs'⟩
  exact scanStep_quoted_err defaultConfig s _ s'
    (getGeneral_noMatch_head defaultConfig .whitespace defaultConfig.isSpaceRune []
      (updatePos s) c rest hin0 hsp)
    (getComment_noMatch_ne defaultConfig (updatePos s) c rest hin0 hslash)
    hq'

/-- Concrete check of `unterminated_quote_fatal` on the spec's example
input tail `"foo bar` (opening double quote never closed). -/
theorem unterminated_quote_fatal_check :
    ∃ s', scanStep defaultConfig (initState ("\"foo bar".toList)) =
        .stop [] s' (some (.unterminated (updatePos (initState ("\"foo bar".toList))).pos '"')) ∧
      s'.input = [] :=
  unterminated_quote_fatal (initState ("\"foo bar".toList)) '"' '"' ("foo bar".toList)
    rfl (by decide) (by decide)

/-- C4: a quoted string terminated by an unescaped closing rune produces a
String token whose text is the opening rune followed by the consumed body
with every escape rune that immediately precedes a closing-rune occurrence
removed; the text starts with the opening delimiter and ends with the
closing delimiter.  On the spec's example, scanning
`foo = "foo \"some stuff\" bar"` surfaces the single String token
`"foo "some stuff" bar"`. -/
theorem quoted_token_text (cfg : Config) (s : ScanState) (c close : Char)
    (rest : List Char) (t : Token) (s' : ScanState)
    (hin : s.input = c :: rest)
    (hq : cfg.isQuoteRune c = (true, close))
    (hneol : close ≠ cfg.eol)
    (h : getQuoted cfg s = .tok t s') :
    (∃ body, rest = body ++ s'.input ∧
      t.text = c :: stripEscapes cfg.isEscapeRune close body ∧
      t.text.head? = some c ∧
      t.text.getLast? = some close ∧
      t.type = .string) ∧
    scanTexts defaultConfig ("foo = \"foo \\\"some stuff\\\" bar\"".toList) =
      ["foo".toList, "=".toList, "\"foo \"some stuff\" bar\"".toList] ∧
    (scanAll defaultConfig ("foo = \"foo \\\"some stuff\\\" bar\"".toList)).1.map
        (fun x => x.1.type) = [.ident, .symbol, .string] := by
  refine ⟨?_, by decide, by decide⟩
  unfold getQuoted at h
  rw [hin] at h
  simp only [hq] at h
  cases hql : quotedLoop cfg close (rest.length + 1) rest []
      (s.lastByteLen + c.utf8Size) s.lastLineAddition s.lastCol with
  | error e =>
    obtain ⟨e1, e2, e3⟩ := e
    rw [hql] at h
    simp at h
  | ok v =>
    obtain ⟨allR, bl', la', lc', rest'⟩ := v
    rw [hql] at h
    injection h with ht hs
    subst ht
    subst hs
    obtain ⟨body, hb1, hb2, _, _, hb5⟩ :=
      quotedLoop_ok_spec cfg close hneol (rest.length + 1) rest [] _ _ _
        allR bl' la' lc' rest' hql
    rw [List.nil_append] at hb2
    refine ⟨body, ?_, ?_, ?_, ?_, ?_⟩
    · rw [hb1]
    · rw [hb2]
    · rfl
    · simp only []
      cases hsb : stripEscapes cfg.isEscapeRune close body with
      | nil =>
        rw [hsb] at hb5
        simp at hb5
      | cons x xs =>
        rw [hb2, hsb, List.getLast?_cons_cons, ← hsb]
        exact hb5
    · rfl

/-- Concrete check of `quoted_token_text` on the input `"a\"b"`. -/
theorem quoted_token_text_check :
    (∃ body, ("a\\\"b\"".toList) = body ++
        ({ input := [], pos := { offset := 0, line := 1, column := 1 },
           lastByteLen := 6, lastLineAddition := 0, lastCol := 6 } : ScanState).input ∧
      ({ text := "\"a\"b\"".toList, numBytes := 6, numChars := 5,
         firstRune := '"', type := TokenType.string } : Token).text =
        '"' :: stripEscapes defaultConfig.isEscapeRune '"' body ∧
      ({ text := "\"a\"b\"".toList, numBytes := 6, numChars := 5,
         firstRune := '"', type := TokenType.string } : Token).text.head? = some '"' ∧
      ({ text := "\"a\"b\"".toList, numBytes := 6, numChars := 5,
         firstRune := '"', type := TokenType.string } : Token).text.getLast? = some '"' ∧
      ({ text := "\"a\"b\"".toList, numBytes := 6, numChars := 5,
         firstRune := '"', type := TokenType.string } : Token).type = .string) ∧
    scanTexts defaultConfig ("foo = \"foo \\\"some stuff\\\" bar\"".toList) =
      ["foo".toList, "=".toList, "\"foo \"some stuff\" bar\"".toList] ∧
    (scanAll defaultConfig ("foo = \"foo \\\"some stuff\\\" bar\"".toList)).1.map
        (fun x => x.1.type) = [.ident, .symbol, .string] :=
  quoted_token_text defaultConfig (initState ("\"a\\\"b\"".toList)) '"' '"'
    ("a\\\"b\"".toList)
    { text := "\"a\"b\"".toList, numBytes := 6, numChars := 5,
      firstRune := '"', type := TokenType.string }
    { input := [], pos := { offset := 0, line := 1, column := 1 },
      lastByteLen := 6, lastLineAddition := 0, lastCol := 6 }
    rfl (by decide) (by decide) (by decide)

theorem numInv_final (cfg : Config) (runes inp : List Char) (fd fdec isf : Bool)
    (hinv : NumInv cfg runes inp fd fdec isf)
    (hhead : ∀ d r, inp = d :: r → cfg.isDigitRune d = false) :
    ∃ m d1 dec d2,
      runes = m ++ d1 ++ dec ++ d2 ∧
      (m = [] ∨ m = ['-']) ∧
      (∀ x ∈ d1, cfg.isDigitRune x = true) ∧
      (dec = [] ∨ dec = ['.']) ∧
      (∀ x ∈ d2, cfg.isDigitRune x = true) ∧
      (isf = true ↔ dec ≠ []) ∧
      (dec = [] → d2 = []) ∧
      (dec ≠ [] → d1 ≠ [] ∧ d2 ≠ []) ∧
      (m ≠ [] → d1 ≠ []) := by
  obtain ⟨m, d1, dec, d2, h1, h2, h3, h4, h5, h6, h7, h8, h9, h10, h11, h12⟩ := hinv
  refine ⟨m, d1, dec, d2, h1, h2, h3, h4, h5, ?_, h9, ?_, ?_⟩
  · rw [h8]
    exact h7
  · intro hdec
    refine ⟨h10 hdec, ?_⟩
    by_contra hx
    obtain ⟨d, r, hir, hdg⟩ := h12 ⟨hdec, hx⟩
    rw [hhead d r hir] at hdg
    cases hdg
  · intro hm
    by_contra hx
    obtain ⟨d, r, hir, hdg⟩ := h11 ⟨hm, hx⟩
    rw [hhead d r hir] at hdg
    cases hdg

theorem numberAux_inv (cfg : Config) (hdot : cfg.isDigitRune '.' = false)
    (hminus : cfg.isDigitRune '-' = false) :
    ∀ inp runes total fd fdec isf la lc runes' total' isf' la' lc' rest,
      numberAux cfg inp runes total fd fdec isf la lc
        = some (runes', total', isf', la', lc', rest) →
      NumInv cfg runes inp fd fdec isf →
      ((∃ m d1 dec d2,
          runes' = m ++ d1 ++ dec ++ d2 ∧
          (m = [] ∨ m = ['-']) ∧
          (∀ x ∈ d1, cfg.isDigitRune x = true) ∧
          (dec = [] ∨ dec = ['.']) ∧
          (∀ x ∈ d2, cfg.isDigitRune x = true) ∧
          (isf' = true ↔ dec ≠ []) ∧
          (dec = [] → d2 = []) ∧
          (dec ≠ [] → d1 ≠ [] ∧ d2 ≠ []) ∧
          (m ≠ [] → d1 ≠ [])) ∧
        ∃ add, runes' = runes ++ add ∧ inp = add ++ rest ∧ total' = total + utf8Len add) := by
  intro inp
  induction inp with
  | nil =>
    intro runes total fd fdec isf la lc runes' total' isf' la' lc' rest h hinv
    rw [numberAux] at h
    by_cases hr : runes.isEmpty
    · rw [if_pos hr] at h
      cases h
    · rw [if_neg hr] at h
      simp only [Option.some.injEq, Prod.mk.injEq] at h
      obtain ⟨e1, e2, e3, e4, e5, e6⟩ := h
      have hfin := numInv_final cfg runes [] fd fdec isf hinv
        (fun d r hh => absurd hh (by simp))
      rw [e1, e3] at hfin
      refine ⟨hfin, [], by rw [← e1]; simp, by rw [← e6]; simp, by rw [← e2]; simp⟩
  | cons c rest0 ih =>
    intro runes total fd fdec isf la lc runes' total' isf' la' lc' rest h hinv
    rw [numberAux.eq_def] at h
    simp only [] at h
    by_cases hg1 : c = '.' ∧ fd = true ∧ ¬fdec = true
    · rw [if_pos hg1] at h
      cases rest0 with
      | nil =>
        simp only [Option.some.injEq, Prod.mk.injEq] at h
        obtain ⟨e1, e2, e3, e4, e5, e6⟩ := h
        have hfin := numInv_final cfg runes (c :: []) fd fdec isf hinv
          (fun dd r hh => by
            injection hh with hh1 _
            rw [← hh1, hg1.1]
            exact hdot)
        rw [e1, e3] at hfin
        refine ⟨hfin, [], by rw [← e1]; simp, by rw [← e6]; simp, by rw [← e2]; simp⟩
      | cons d rr =>
        simp only [] at h
        by_cases hdig : cfg.isDigitRune d = true
        · rw [if_pos hdig] at h
          obtain ⟨m, d1, dec, d2, h1, h2, h3, h4, h5, h6, h7, h8, h9, h10, h11, h12⟩ := hinv
          have hdece : dec = [] := by
            by_contra hx
            exact hg1.2.2 (h7.mpr hx)
          have hd2e : d2 = [] := h9 hdece
          have hd1ne : d1 ≠ [] := h6.mp hg1.2.1
          have hinv' : NumInv cfg (runes ++ [c]) (d :: rr) fd true true := by
            refine ⟨m, d1, [c], [], ?_, h2, h3, ?_, ?_, h6, ?_, rfl, ?_, ?_, ?_, ?_⟩
            · rw [h1, hdece, hd2e]
              simp
            · rw [hg1.1]
              exact Or.inr rfl
            · simp
            · simp
            · intro _
              rfl
            · intro _
              exact hd1ne
            · intro hx
              exact absurd hx.2 hd1ne
            · intro _
              exact ⟨d, rr, rfl, hdig⟩
          obtain ⟨hshape, add, ha1, ha2, ha3⟩ := ih (runes ++ [c]) (total + c.utf8Size)
            fd true true la (lc + 1) runes' total' isf' la' lc' rest h hinv'
          refine ⟨hshape, c :: add, ?_, ?_, ?_⟩
          · rw [ha1]
            simp
          · rw [List.cons_append, ← ha2]
          · rw [ha3, utf8Len_cons]
            omega
        · rw [if_neg hdig] at h
          simp only [Option.some.injEq, Prod.mk.injEq] at h
          obtain ⟨e1, e2, e3, e4, e5, e6⟩ := h
          have hfin := numInv_final cfg runes (c :: d :: rr) fd fdec isf hinv
            (fun dd r hh => by
              injection hh with hh1 _
              rw [← hh1, hg1.1]
              exact hdot)
          rw [e1, e3] at hfin
          refine ⟨hfin, [], by rw [← e1]; simp, by rw [← e6]; simp, by rw [← e2]; simp⟩
    · rw [if_neg hg1] at h
      by_cases hg2 : c = '-' ∧ ¬fd = true
      · rw [if_pos hg2] at h
        cases rest0 with
        | nil =>
          simp only [Option.some.injEq, Prod.mk.injEq] at h
          obtain ⟨e1, e2, e3, e4, e5, e6⟩ := h
          have hfin := numInv_final cfg runes (c :: []) fd fdec isf hinv
            (fun dd r hh => by
              injection hh with hh1 _
              rw [← hh1, hg2.1]
              exact hminus)
          rw [e1, e3] at hfin
          refine ⟨hfin, [], by rw [← e1]; simp, by rw [← e6]; simp, by rw [← e2]; simp⟩
        | cons d rr =>
          simp only [] at h
          by_cases hdig : cfg.isDigitRune d = true
          · rw [if_pos hdig] at h
            obtain ⟨m, d1, dec, d2, h1, h2, h3, h4, h5, h6, h7, h8, h9, h10, h11, h12⟩ := hinv
            have hd1e : d1 = [] := by
              by_contra hx
              exact hg2.2 (h6.mpr hx)
            have hdece : dec = [] := by
              by_contra hx
              exact (h10 hx) hd1e
            have hd2e : d2 = [] := h9 hdece
            have hme : m = [] := by
              by_contra hx
              obtain ⟨dd, r, hir, hdg⟩ := h11 ⟨hx, hd1e⟩
              injection hir with hh1 _
              rw [← hh1, hg2.1, hminus] at hdg
              cases hdg
            have hre : runes = [] := by
              rw [h1, hme, hd1e, hdece, hd2e]
              rfl
            have hfde : fd = false := by
              cases fd with
              | false => rfl
              | true => exact absurd rfl hg2.2
            have hfdece : fdec = false := by
              cases fdec with
              | false => rfl
              | true => exact absurd hdece (h7.mp rfl)
            have hinv' : NumInv cfg (runes ++ [c]) (d :: rr) fd fdec isf := by
              refine ⟨[c], [], [], [], ?_, ?_, ?_, Or.inl rfl, ?_, ?_, ?_, h8,
                fun _ => rfl, ?_, ?_, ?_⟩
              · rw [hre]
                rfl
              · rw [hg2.1]
                exact Or.inr rfl
              · simp
              · simp
              · rw [hfde]
                simp
              · rw [hfdece]
                simp
              · intro hx
                exact absurd rfl hx
              · intro _
                exact ⟨d, rr, rfl, hdig⟩
              · intro hx
                exact absurd rfl hx.1
            obtain ⟨hshape, add, ha1, ha2, ha3⟩ := ih (runes ++ [c]) (total + c.utf8Size)
              fd fdec isf la (lc + 1) runes' total' isf' la' lc' rest h hinv'
            refine ⟨hshape, c :: add, ?_, ?_, ?_⟩
            · rw [ha1]
              simp
            · rw [List.cons_append, ← ha2]
            · rw [ha3, utf8Len_cons]
              omega
          · rw [if_neg hdig] at h
            simp only [Option.some.injEq, Prod.mk.injEq] at h
            obtain ⟨e1, e2, e3, e4, e5, e6⟩ := h
            have hfin := numInv_final cfg runes (c :: d :: rr) fd fdec isf hinv
              (fun dd r hh => by
                injection hh with hh1 _
                rw [← hh1, hg2.1]
                exact hminus)
            rw [e1, e3] at hfin
            refine ⟨hfin, [], by rw [← e1]; simp, by rw [← e6]; simp, by rw [← e2]; simp⟩
      · rw [if_neg hg2] at h
        by_cases hdig3 : cfg.isDigitRune c = true
        · rw [if_pos hdig3] at h
          obtain ⟨m, d1, dec, d2, h1, h2, h3, h4, h5, h6, h7, h8, h9, h10, h11, h12⟩ := hinv
          cases h4 with
          | inl hdece =>
            have hd2e : d2 = [] := h9 hdece
            have hfdece : fdec = false := by
              cases fdec with
              | false => rfl
              | true => exact absurd hdece (h7.mp rfl)
            have hinv' : NumInv cfg (runes ++ [c]) rest0 true fdec isf := by
              refine ⟨m, d1 ++ [c], [], [], ?_, h2, ?_, Or.inl rfl, ?_, ?_, ?_,
                ?_, fun _ => rfl, ?_, ?_, ?_⟩
              · rw [h1, hdece, hd2e]
                simp
              · intro x hx
                rcases List.mem_append.mp hx with hx | hx
                · exact h3 x hx
                · rw [List.mem_singleton.mp hx]
                  exact hdig3
              · simp
              · simp
              · rw [hfdece]
                simp
              · exact h8
              · intro hx
                exact absurd rfl hx
              · intro hx
                exact absurd hx.2 (by simp)
              · intro hx
                exact absurd rfl hx.1
            obtain ⟨hshape, add, ha1, ha2, ha3⟩ := ih (runes ++ [c]) (total + c.utf8Size)
              true fdec isf (bumpLC cfg c la lc).1 (bumpLC cfg c la lc).2
              runes' total' isf' la' lc' rest h hinv'
            refine ⟨hshape, c :: add, ?_, ?_, ?_⟩
            · rw [ha1]
              simp
            · rw [List.cons_append, ← ha2]
            · rw [ha3, utf8Len_cons]
              omega
          | inr hdecd =>
            have hd1ne : d1 ≠ [] := h10 (by rw [hdecd]; simp)
            have hinv' : NumInv cfg (runes ++ [c]) rest0 true fdec isf := by
              refine ⟨m, d1, dec, d2 ++ [c], ?_, h2, h3, Or.inr hdecd, ?_, ?_, h7, h8,
                ?_, fun _ => hd1ne, ?_, ?_⟩
              · rw [h1]
                simp
              · intro x hx
                rcases List.mem_append.mp hx with hx | hx
                · exact h5 x hx
                · rw [List.mem_singleton.mp hx]
                  exact hdig3
              · constructor
                · intro _
                  exact hd1ne
                · intro _
                  rfl
              · intro hx
                rw [hdecd] at hx
                cases hx
              · intro hx
                exact absurd hx.2 hd1ne
              · intro hx
                exact absurd hx.2 (by simp)
            obtain ⟨hshape, add, ha1, ha2, ha3⟩ := ih (runes ++ [c]) (total + c.utf8Size)
              true fdec isf (bumpLC cfg c la lc).1 (bumpLC cfg c la lc).2
              runes' total' isf' la' lc' rest h hinv'
            refine ⟨hshape, c :: add, ?_, ?_, ?_⟩
            · rw [ha1]
              simp
            · rw [List.cons_append, ← ha2]
            · rw [ha3, utf8Len_cons]
              omega
        · rw [if_neg hdig3] at h
          simp only [Option.some.injEq, Prod.mk.injEq] at h
          obtain ⟨e1, e2, e3, e4, e5, e6⟩ := h
          have hfin := numInv_final cfg runes (c :: rest0) fd fdec isf hinv
            (fun dd r hh => by
              injection hh with hh1 _
              rw [← hh1]
              cases hcc : cfg.isDigitRune c with
              | false => rfl
              | true => exact absurd hcc hdig3)
          rw [e1, e3] at hfin
          refine ⟨hfin, [], by rw [← e1]; simp, by rw [← e6]; simp, by rw [← e2]; simp⟩

theorem getNumber_shape (cfg : Config) (hdot : cfg.isDigitRune '.' = false)
    (hminus : cfg.isDigitRune '-' = false) (s : ScanState) (t : Token) (s' : ScanState)
    (h : getNumber cfg s = .tok t s') :
    ∃ m d1 dec d2,
      t.text = m ++ d1 ++ dec ++ d2 ∧
      (m = [] ∨ m = ['-']) ∧
      (∀ x ∈ d1, cfg.isDigitRune x = true) ∧
      (dec = [] ∨ dec = ['.']) ∧
      (∀ x ∈ d2, cfg.isDigitRune x = true) ∧
      d1 ≠ [] ∧
      (dec ≠ [] → d2 ≠ []) ∧
      (t.type = .float ↔ dec ≠ []) ∧
      s.input = t.text ++ s'.input := by
  unfold getNumber at h
  cases hna : numberAux cfg s.input [] 0 false false false s.lastLineAddition s.lastCol with
  | none =>
    rw [hna] at h
    simp at h
  | some v =>
    obtain ⟨runes', total', isf', la', lc', rest⟩ := v
    rw [hna] at h
    simp only [] at h
    by_cases hre : runes'.isEmpty
    · rw [if_pos hre] at h
      simp at h
    · rw [if_neg hre] at h
      injection h with ht hs
      have hinv0 : NumInv cfg [] s.input false false false := by
        refine ⟨[], [], [], [], rfl, Or.inl rfl, by simp, Or.inl rfl, by simp, by simp,
          by simp, rfl, fun _ => rfl, ?_, ?_, ?_⟩
        · intro hx
          exact absurd rfl hx
        · intro hx
          exact absurd rfl hx.1
        · intro hx
          exact absurd rfl hx.1
      obtain ⟨⟨m, d1, dec, d2, s1, s2, s3, s4, s5, s6, s7, s8, s9⟩, add, a1, a2, a3⟩ :=
        numberAux_inv cfg hdot hminus s.input [] 0 false false false s.lastLineAddition
          s.lastCol runes' total' isf' la' lc' rest hna hinv0
      rw [List.nil_append] at a1
      have hd1ne : d1 ≠ [] := by
        intro hx
        have hme : m = [] := by
          cases s2 with
          | inl h2 => exact h2
          | inr h2 => exact absurd hx (s9 (by rw [h2]; simp))
        have hdece : dec = [] := by
          by_cases hd : dec = []
          · exact hd
          · exact absurd hx (s8 hd).1
        have hd2e : d2 = [] := s7 hdece
        rw [s1, hme, hx, hdece, hd2e] at hre
        simp at hre
      subst ht
      subst hs
      refine ⟨m, d1, dec, d2, s1, s2, s3, s4, s5, hd1ne, fun hd => (s8 hd).2, ?_, ?_⟩
      · cases hisf : isf' with
        | true =>
          constructor
          · intro _
            exact s6.mp (by rw [hisf])
          · intro _
            simp [hisf]
        | false =>
          constructor
          · intro hx
            simp [hisf] at hx
          · intro hx
            have h2 := s6.mpr hx
            rw [hisf] at h2
            cases h2
      · show s.input = runes' ++ rest
        rw [a2, a1]

/-- C5: in the number classifier under the default configuration, a decimal
point is consumed at most once (the produced text holds at most one `.`),
the token is a Float exactly when a `.` was consumed, every consumed `.` is
immediately preceded and followed by digits, and the token text is exactly
the consumed prefix of the input (anything else, such as a trailing `.`,
stays unconsumed).  On the spec's example, `foo = 42.` produces the Int
token `42` followed by the separate Symbol token `.`. -/
theorem number_decimal_point_rules (s : ScanState) (t : Token) (s' : ScanState)
    (h : getNumber defaultConfig s = .tok t s') :
    (t.text.count '.' ≤ 1 ∧
     (t.type = .float ↔ '.' ∈ t.text) ∧
     ('.' ∈ t.text →
       ∃ pre a d post, t.text = pre ++ a :: '.' :: d :: post ∧
         goIsDigit a = true ∧ goIsDigit d = true) ∧
     s.input = t.text ++ s'.input) ∧
    scanTexts defaultConfig ("foo = 42.".toList) =
      ["foo".toList, "=".toList, "42".toList, ".".toList] ∧
    (scanAll defaultConfig ("foo = 42.".toList)).1.map (fun x => x.1.type) =
      [.ident, .symbol, .int, .symbol] := by
  refine ⟨?_, by decide, by decide⟩
  obtain ⟨m, d1, dec, d2, s1, s2, s3, s4, s5, s6, s7, s8, s9⟩ :=
    getNumber_shape defaultConfig (by decide) (by decide) s t s' h
  have hpm : '.' ∉ m := by
    cases s2 with
    | inl h2 => rw [h2]; simp
    | inr h2 => rw [h2]; decide
  have hpd1 : '.' ∉ d1 := by
    intro hx
    exact absurd (s3 '.' hx) (by decide)
  have hpd2 : '.' ∉ d2 := by
    intro hx
    exact absurd (s5 '.' hx) (by decide)
  have hdec_iff : dec ≠ [] ↔ '.' ∈ t.text := by
    constructor
    · intro hx
      cases s4 with
      | inl h4 => exact absurd h4 hx
      | inr h4 =>
        rw [s1, h4]
        simp
    · intro hx
      rw [s1] at hx
      rcases List.mem_append.mp hx with hx | hx
      · rcases List.mem_append.mp hx with hx | hx
        · rcases List.mem_append.mp hx with hx | hx
          · exact absurd hx hpm
          · exact absurd hx hpd1
        · exact List.ne_nil_of_mem hx
      · exact absurd hx hpd2
  refine ⟨?_, s8.trans hdec_iff, ?_, s9⟩
  · rw [s1]
    simp only [List.count_append]
    rw [List.count_eq_zero.mpr hpm, List.count_eq_zero.mpr hpd1, List.count_eq_zero.mpr hpd2]
    cases s4 with
    | inl h4 =>
      rw [h4]
      simp
    | inr h4 =>
      rw [h4]
      simp
  · intro hx
    have hdne : dec ≠ [] := hdec_iff.mpr hx
    have hd4 : dec = ['.'] := by
      cases s4 with
      | inl h4 => exact absurd h4 hdne
      | inr h4 => exact h4
    have hd2ne : d2 ≠ [] := s7 hdne
    obtain ⟨d1', a, hsplit⟩ : ∃ d1' a, d1 = d1' ++ [a] := by
      rcases List.eq_nil_or_concat d1 with hq | ⟨d1', a, hq⟩
      · exact absurd hq s6
      · rw [List.concat_eq_append] at hq
        exact ⟨d1', a, hq⟩
    cases hd2s : d2 with
    | nil => exact absurd hd2s hd2ne
    | cons dd d2' =>
      refine ⟨m ++ d1', a, dd, d2', ?_, ?_, ?_⟩
      · rw [s1, hd4, hsplit, hd2s]
        simp
      · exact s3 a (by rw [hsplit]; simp)
      · exact s5 dd (by rw [hd2s]; simp)

/-- Concrete check of `number_decimal_point_rules` at the input `42.`
(the classifier stops before the trailing period, producing the Int token
`42` with the `.` left in the input). -/
theorem number_decimal_point_rules_check :
    ((({ text := "42".toList, numBytes := 2, numChars := 2, firstRune := '4',
         type := TokenType.int } : Token).text.count '.' ≤ 1 ∧
      (({ text := "42".toList, numBytes := 2, numChars := 2, firstRune := '4',
          type := TokenType.int } : Token).type = .float ↔
        '.' ∈ ({ text := "42".toList, numBytes := 2, numChars := 2, firstRune := '4',
                 type := TokenType.int } : Token).text) ∧
      ('.' ∈ ({ text := "42".toList, numBytes := 2, numChars := 2, firstRune := '4',
                type := TokenType.int } : Token).text →
        ∃ pre a d post,
          ({ text := "42".toList, numBytes := 2, numChars := 2, firstRune := '4',
             type := TokenType.int } : Token).text = pre ++ a :: '.' :: d :: post ∧
          goIsDigit a = true ∧ goIsDigit d = true) ∧
      (initState ("42.".toList)).input =
        ({ text := "42".toList, numBytes := 2, numChars := 2, firstRune := '4',
           type := TokenType.int } : Token).text ++
        ({ input := ['.'], pos := { offset := 0, line := 1, column := 1 },
           lastByteLen := 2, lastLineAddition := 0, lastCol := 3 } : ScanState).input) ∧
     scanTexts defaultConfig ("foo = 42.".toList) =
       ["foo".toList, "=".toList, "42".toList, ".".toList] ∧
     (scanAll defaultConfig ("foo = 42.".toList)).1.map (fun x => x.1.type) =
       [.ident, .symbol, .int, .symbol]) :=
  number_decimal_point_rules (initState ("42.".toList))
    { text := "42".toList, numBytes := 2, numChars := 2, firstRune := '4',
      type := TokenType.int }
    { input := ['.'], pos := { offset := 0, line := 1, column := 1 },
      lastByteLen := 2, lastLineAddition := 0, lastCol := 3 }
    (by decide)

/-- C6: in the number classifier under the default configuration, a minus
sign can occur only as the very first rune of the token and only
immediately followed by a digit, and the token text is exactly the consumed
prefix of the input.  On the spec's examples, `foo = -42` produces the
single Int token `-42`, while `foo = - 42` (space after the minus) produces
the separate Symbol token `-` and Int token `42`. -/
theorem number_minus_rules (s : ScanState) (t : Token) (s' : ScanState)
    (h : getNumber defaultConfig s = .tok t s') :
    (('-' ∈ t.text →
        ∃ d rest2, t.text = '-' :: d :: rest2 ∧ goIsDigit d = true ∧ '-' ∉ d :: rest2) ∧
     s.input = t.text ++ s'.input) ∧
    scanTexts defaultConfig ("foo = -42".toList) =
      ["foo".toList, "=".toList, "-42".toList] ∧
    (scanAll defaultConfig ("foo = -42".toList)).1.map (fun x => x.1.type) =
      [.ident, .symbol, .int] ∧
    scanTexts defaultConfig ("foo = - 42".toList) =
      ["foo".toList, "=".toList, "-".toList, "42".toList] := by
  refine ⟨?_, by decide, by decide, by decide⟩
  obtain ⟨m, d1, dec, d2, s1, s2, s3, s4, s5, s6, s7, s8, s9⟩ :=
    getNumber_shape defaultConfig (by decide) (by decide) s t s' h
  have hmd1 : '-' ∉ d1 := by
    intro hx
    exact absurd (s3 '-' hx) (by decide)
  have hmdec : '-' ∉ dec := by
    cases s4 with
    | inl h4 => rw [h4]; simp
    | inr h4 => rw [h4]; decide
  have hmd2 : '-' ∉ d2 := by
    intro hx
    exact absurd (s5 '-' hx) (by decide)
  refine ⟨?_, s9⟩
  intro hx
  have hm : m = ['-'] := by
    cases s2 with
    | inr h2 => exact h2
    | inl h2 =>
      exfalso
      rw [s1, h2, List.nil_append] at hx
      rcases List.mem_append.mp hx with hx | hx
      · rcases List.mem_append.mp hx with hx | hx
        · exact absurd hx hmd1
        · exact absurd hx hmdec
      · exact absurd hx hmd2
  cases hd1s : d1 with
  | nil => exact absurd hd1s s6
  | cons dd d1'' =>
    refine ⟨dd, d1'' ++ dec ++ d2, ?_, s3 dd (by rw [hd1s]; simp), ?_⟩
    · rw [s1, hm, hd1s]
      simp
    · intro hq
      rcases List.mem_cons.mp hq with hq | hq
      · exact absurd (s3 dd (by rw [hd1s]; simp)) (by rw [← hq]; decide)
      rcases List.mem_append.mp hq with hq | hq
      · rcases List.mem_append.mp hq with hq | hq
        · exact hmd1 (by rw [hd1s]; simp [hq])
        · exact hmdec hq
      · exact hmd2 hq

/-- Concrete check of `number_minus_rules` at the input `-42`. -/
theorem number_minus_rules_check :
    (('-' ∈ ("-42".toList) →
        ∃ d rest2, ("-42".toList : List Char) = '-' :: d :: rest2 ∧
          goIsDigit d = true ∧ '-' ∉ d :: rest2) ∧
      ("-42".toList : List Char) = "-42".toList ++
        ({ input := [], pos := { offset := 0, line := 1, column := 1 },
           lastByteLen := 3, lastLineAddition := 0, lastCol := 4 } : ScanState).input) :=
  ((number_minus_rules (initState ("-42".toList))
    { text := "-42".toList, numBytes := 3, numChars := 3,
      firstRune := '-', type := TokenType.int }
    { input := [], pos := { offset := 0, line := 1, column := 1 },
      lastByteLen := 3, lastLineAddition := 0, lastCol := 4 }
    (by decide)).1)

theorem nonempty_head?_headD (d : Char) (l : List Char) (h : l.isEmpty = false) :
    l.head? = some (l.headD d) := by
  cases l with
  | nil => simp at h
  | cons a as => rfl

theorem getGeneral_tok_inv (cfg : Config) (ty : TokenType) (check : Char → Bool)
    (exc : List (Char → Bool)) (s : ScanState) (t : Token) (s' : ScanState)
    (h : getGeneral cfg ty check exc s = .tok t s') :
    t.numChars = t.text.length ∧ t.text.head? = some t.firstRune := by
  unfold getGeneral at h
  split at h
  · simp at h
  · split at h
    · simp at h
    · rename_i hne
      injection h with ht hs
      subst ht
      refine ⟨rfl, ?_⟩
      apply nonempty_head?_headD
      cases hh : List.isEmpty _ with
      | false => rfl
      | true => exact absurd hh hne

theorem getIdent_tok_inv (cfg : Config) (s : ScanState) (t : Token) (s' : ScanState)
    (h : getIdent cfg s = .tok t s') :
    t.numChars = t.text.length ∧ t.text.head? = some t.firstRune := by
  unfold getIdent at h
  split at h
  · simp at h
  · split at h
    · simp at h
    · rename_i hne
      injection h with ht hs
      subst ht
      refine ⟨rfl, ?_⟩
      apply nonempty_head?_headD
      cases hh : List.isEmpty _ with
      | false => rfl
      | true => exact absurd hh hne

theorem getNumber_tok_inv (cfg : Config) (s : ScanState) (t : Token) (s' : ScanState)
    (h : getNumber cfg s = .tok t s') :
    t.numChars = t.text.length ∧ t.text.head? = some t.firstRune := by
  unfold getNumber at h
  split at h
  · simp at h
  · split at h
    · simp at h
    · rename_i hne
      injection h with ht hs
      subst ht
      refine ⟨rfl, ?_⟩
      apply nonempty_head?_headD
      cases hh : List.isEmpty _ with
      | false => rfl
      | true => exact absurd hh hne

theorem getComment_tok_inv (cfg : Config) (s : ScanState) (t : Token) (s' : ScanState)
    (h : getComment cfg s = .tok t s') :
    t.numChars = t.text.length ∧ t.text.head? = some t.firstRune := by
  unfold getComment at h
  split at h
  · simp at h
  · split at h
    · split at h
      · simp at h
      · split at h
        · split at h
          · simp at h
          · injection h with ht hs
            subst ht
            refine ⟨rfl, ?_⟩
            simp only [List.head?_cons, Option.some.injEq]
            assumption
        · split at h
          · split at h
            · simp at h
            · injection h with ht hs
              subst ht
              refine ⟨rfl, ?_⟩
              simp only [List.head?_cons, Option.some.injEq]
              assumption
          · simp at h
    · simp at h

theorem getQuoted_tok_inv (cfg : Config) (s : ScanState) (t : Token) (s' : ScanState)
    (h : getQuoted cfg s = .tok t s') :
    t.numChars = t.text.length ∧ t.text.head? = some t.firstRune := by
  unfold getQuoted at h
  split at h
  · simp at h
  · split at h
    · split at h
      · simp at h
      · injection h with ht hs
        subst ht
        exact ⟨by simp, rfl⟩
    · simp at h

theorem getQuoted_bytes (cfg : Config) (s : ScanState) (c close : Char)
    (rest : List Char) (t : Token) (s' : ScanState)
    (hin : s.input = c :: rest) (hq : cfg.isQuoteRune c = (true, close))
    (hneol : close ≠ cfg.eol) (hbl : s.lastByteLen = 0)
    (h : getQuoted cfg s = .tok t s') :
    ∃ consumed, s.input = consumed ++ s'.input ∧ t.numBytes = utf8Len consumed := by
  unfold getQuoted at h
  rw [hin] at h
  simp only [hq] at h
  cases hql : quotedLoop cfg close (rest.length + 1) rest []
      (s.lastByteLen + c.utf8Size) s.lastLineAddition s.lastCol with
  | error e =>
    obtain ⟨e1, e2, e3⟩ := e
    rw [hql] at h
    simp at h
  | ok v =>
    obtain ⟨allR, bl', la', lc', rest'⟩ := v
    rw [hql] at h
    injection h with ht hs
    subst ht
    subst hs
    obtain ⟨body, hb1, _, hb3, _, _⟩ :=
      quotedLoop_ok_spec cfg close hneol (rest.length + 1) rest [] _ _ _
        allR bl' la' lc' rest' hql
    refine ⟨c :: body, ?_, ?_⟩
    · rw [hin, hb1]
      rfl
    · show bl' = utf8Len (c :: body)
      rw [hb3, hbl, utf8Len_cons]
      omega

/-- C10: every token produced by a classifier has `NumChars` equal to the
number of runes of its text and `FirstRune` equal to the first rune of its
text; for String tokens, `NumBytes` is the byte count actually consumed
from the input (escape runes included), so it can exceed the UTF-8 length
of the text — witnessed by the input `"a\"b"`, whose String token has
6 consumed bytes but a 5-byte text. -/
theorem token_metadata_consistent :
    (∀ (cfg : Config) ty check exc (s : ScanState) t s',
      getGeneral cfg ty check exc s = .tok t s' →
      t.numChars = t.text.length ∧ t.text.head? = some t.firstRune) ∧
    (∀ (cfg : Config) (s : ScanState) t s', getIdent cfg s = .tok t s' →
      t.numChars = t.text.length ∧ t.text.head? = some t.firstRune) ∧
    (∀ (cfg : Config) (s : ScanState) t s', getNumber cfg s = .tok t s' →
      t.numChars = t.text.length ∧ t.text.head? = some t.firstRune) ∧
    (∀ (cfg : Config) (s : ScanState) t s', getComment cfg s = .tok t s' →
      t.numChars = t.text.length ∧ t.text.head? = some t.firstRune) ∧
    (∀ (cfg : Config) (s : ScanState) t s', getQuoted cfg s = .tok t s' →
      t.numChars = t.text.length ∧ t.text.head? = some t.firstRune) ∧
    (∀ (cfg : Config) (s : ScanState) c close rest t s',
      s.input = c :: rest → cfg.isQuoteRune c = (true, close) → close ≠ cfg.eol →
      s.lastByteLen = 0 → getQuoted cfg s = .tok t s' →
      ∃ consumed, s.input = consumed ++ s'.input ∧ t.numBytes = utf8Len consumed) ∧
    ((CRes.tokOf (getQuoted defaultConfig (initState ("\"a\\\"b\"".toList)))).map
        (fun t => (t.numBytes, utf8Len t.text)) = some (6, 5) ∧ 5 < 6) := by
  refine ⟨getGeneral_tok_inv, getIdent_tok_inv, getNumber_tok_inv, getComment_tok_inv,
    getQuoted_tok_inv, getQuoted_bytes, by decide, by decide⟩

/-- Concrete check of `token_metadata_consistent`: the quoted-string byte
accounting applied to the input `"a\"b"`. -/
theorem token_metadata_consistent_check :
    ∃ consumed, (initState ("\"a\\\"b\"".toList)).input = consumed ++
        ({ input := [], pos := { offset := 0, line := 1, column := 1 },
           lastByteLen := 6, lastLineAddition := 0, lastCol := 6 } : ScanState).input ∧
      ({ text := "\"a\"b\"".toList, numBytes := 6, numChars := 5,
         firstRune := '"', type := TokenType.string } : Token).numBytes = utf8Len consumed :=
  token_metadata_consistent.2.2.2.2.2.1 defaultConfig (initState ("\"a\\\"b\"".toList))
    '"' '"' ("a\\\"b\"".toList)
    { text := "\"a\"b\"".toList, numBytes := 6, numChars := 5,
      firstRune := '"', type := TokenType.string }
    { input := [], pos := { offset := 0, line := 1, column := 1 },
      lastByteLen := 6, lastLineAddition := 0, lastCol := 6 }
    rfl (by decide) (by decide) rfl (by decide)

end Textparser
